import Mathlib

/-!
Verification development for the decentralized-storage-demo repository.

The repository encrypts a file into per-chunk AEAD ciphertexts with a
composite integrity hash (`src/services/fileEncryptionService.ts`),
reconstructs and verifies the file from a chunk set or a container archive
(`src/services/fileReconstructionService.ts`), and manages the master key
(`src/utils/keyManager.ts`).

Bytes are modelled as natural numbers (`Uint8Array` entries are < 256; the
bound appears as an explicit hypothesis where hex round-trips need it).
The platform crypto provider (Web Crypto: AES-GCM, SHA-256, PBKDF2) is an
external collaborator of the repository; it is modelled by the interface
`CryptoSpec`, whose contract fields record the behaviour the spec assigns
to it (authenticated decryption succeeds exactly on authentic ciphertexts,
and rejects a wrong key).  `idealCrypto` is an executable instance used to
evaluate the development on concrete inputs.
-/

/-- A byte buffer (`Uint8Array`): a list of naturals. -/
abbrev Bytes : Type := List Nat

/-- All entries are genuine byte values (< 256). -/
def Bytes255 (l : Bytes) : Prop := ∀ b ∈ l, b < 256

instance (l : Bytes) : Decidable (Bytes255 l) := by
  unfold Bytes255; infer_instance

deriving instance DecidableEq for Except

/-- Interface of the platform crypto provider consumed by the repository
(`crypto.subtle` / `crypto.getRandomValues` callers).  The contract fields
state the AEAD behaviour the spec attributes to it: decryption inverts
encryption, decryption succeeds only on the authentic ciphertext, a wrong
key is rejected, and ciphertexts of byte inputs are byte outputs. -/
structure CryptoSpec where
  digest : Bytes → Bytes
  deriveKey : List Char → Bytes → Bytes
  aeadEncrypt : Bytes → Bytes → Bytes → Bytes
  aeadDecrypt : Bytes → Bytes → Bytes → Option Bytes
  dec_enc : ∀ k iv p, aeadDecrypt k iv (aeadEncrypt k iv p) = some p
  auth_enc : ∀ k iv c p, aeadDecrypt k iv c = some p → c = aeadEncrypt k iv p
  wrong_key : ∀ k k' iv p, k ≠ k' → aeadDecrypt k' iv (aeadEncrypt k iv p) = none
  enc_bytes : ∀ k iv p, Bytes255 k → Bytes255 iv → Bytes255 p →
    Bytes255 (aeadEncrypt k iv p)
  derive_bytes : ∀ pw salt, Bytes255 (deriveKey pw salt)

/-- Length marker used by the ideal AEAD tag: base-255-unary digits, all
entries < 256, and never a strict prefix of another marker. -/
def lenB (n : Nat) : Bytes := List.replicate (n / 255) 255 ++ [n % 255]

/-- Authentication tag of the ideal AEAD: the key and IV, length-framed. -/
def tagI (k iv : Bytes) : Bytes := lenB k.length ++ k ++ lenB iv.length ++ iv

/-- Ideal AEAD encryption: tag followed by the plaintext. -/
def idealEnc (k iv p : Bytes) : Bytes := tagI k iv ++ p

/-- Ideal AEAD decryption: check the tag, then strip it. -/
def idealDec (k iv c : Bytes) : Option Bytes :=
  if (tagI k iv).isPrefixOf c then some (c.drop (tagI k iv).length) else none

theorem lenB_frame {a b : Nat} {x y : Bytes} (h : lenB a ++ x = lenB b ++ y) :
    a = b ∧ x = y := by
  have ha : 255 * (a / 255) + a % 255 = a := Nat.div_add_mod a 255
  have hb : 255 * (b / 255) + b % 255 = b := Nat.div_add_mod b 255
  have hra : a % 255 < 255 := Nat.mod_lt _ (by omega)
  have hrb : b % 255 < 255 := Nat.mod_lt _ (by omega)
  unfold lenB at h
  -- reduce to the replicate blocks ∕ final digit structure
  have key : ∀ p q r s (x y : Bytes), r < 255 → s < 255 →
      List.replicate p 255 ++ r :: x = List.replicate q 255 ++ s :: y →
      p = q ∧ r = s ∧ x = y := by
    intro p
    induction p with
    | zero =>
      intro q r s x y hr hs h
      cases q with
      | zero => simpa using h
      | succ q => simp [List.replicate_succ] at h; omega
    | succ p ih =>
      intro q r s x y hr hs h
      cases q with
      | zero => simp [List.replicate_succ] at h; omega
      | succ q =>
        simp only [List.replicate_succ, List.cons_append, List.cons.injEq] at h
        obtain ⟨pq, rs, xy⟩ := ih q r s x y hr hs (by simpa using h.2)
        exact ⟨by omega, rs, xy⟩
  have h' := key (a / 255) (b / 255) (a % 255) (b % 255) x y hra hrb (by simpa using h)
  refine ⟨?_, h'.2.2⟩
  omega

theorem tagI_key_eq {k k' iv : Bytes} {x y : Bytes}
    (h : tagI k iv ++ x = tagI k' iv ++ y) : k = k' := by
  unfold tagI at h
  simp only [List.append_assoc] at h
  obtain ⟨hlen, htail⟩ := lenB_frame h
  exact (List.append_inj_left htail hlen).symm ▸ rfl

theorem idealDec_enc (k iv p : Bytes) : idealDec k iv (idealEnc k iv p) = some p := by
  unfold idealDec idealEnc
  have hp : (tagI k iv).isPrefixOf (tagI k iv ++ p) := by
    rw [List.isPrefixOf_iff_prefix]; exact ⟨p, rfl⟩
  rw [if_pos hp, List.drop_left]

theorem idealDec_auth (k iv c p : Bytes) (h : idealDec k iv c = some p) :
    c = idealEnc k iv p := by
  unfold idealDec at h
  by_cases hp : (tagI k iv).isPrefixOf c
  · rw [if_pos hp] at h
    rw [List.isPrefixOf_iff_prefix] at hp
    obtain ⟨t, ht⟩ := hp
    have hpc : p = c.drop (tagI k iv).length := by
      have := h; injection this with h2; exact h2.symm
    subst hpc
    rw [← ht, List.drop_left, idealEnc, ht]
  · rw [if_neg hp] at h; exact absurd h (by simp)

theorem idealDec_wrong_key (k k' iv p : Bytes) (hk : k ≠ k') :
    idealDec k' iv (idealEnc k iv p) = none := by
  unfold idealDec idealEnc
  rw [if_neg]
  intro hp
  rw [List.isPrefixOf_iff_prefix] at hp
  obtain ⟨t, ht⟩ := hp
  exact hk (tagI_key_eq ht).symm

theorem lenB_bytes (n : Nat) : Bytes255 (lenB n) := by
  intro b hb
  unfold lenB at hb
  rcases List.mem_append.mp hb with h | h
  · have := List.eq_of_mem_replicate h; omega
  · simp at h; omega

theorem idealEnc_bytes (k iv p : Bytes) (hk : Bytes255 k) (hiv : Bytes255 iv)
    (hp : Bytes255 p) : Bytes255 (idealEnc k iv p) := by
  intro b hb
  unfold idealEnc tagI at hb
  simp only [List.append_assoc, List.mem_append] at hb
  rcases hb with h | h | h | h | h
  · exact lenB_bytes _ _ h
  · exact hk _ h
  · exact lenB_bytes _ _ h
  · exact hiv _ h
  · exact hp _ h

/-- Executable instance of the platform crypto interface, used to run the
development on concrete inputs. -/
def idealCrypto : CryptoSpec where
  digest l := [l.foldl (fun a b => (a + b) % 256) 0, l.length % 256]
  deriveKey pw salt := (pw.map Char.toNat ++ salt).map (· % 256)
  aeadEncrypt := idealEnc
  aeadDecrypt := idealDec
  dec_enc := idealDec_enc
  auth_enc := idealDec_auth
  wrong_key := idealDec_wrong_key
  enc_bytes := idealEnc_bytes
  derive_bytes := by
    intro pw salt b hb
    simp only [List.mem_map] at hb
    obtain ⟨a, _, rfl⟩ := hb
    omega

/-! ## Hex encoding (`toString(16).padStart(2,'0')` / `parseInt(byte, 16)`) -/

/-- One hex digit, lowercase, as produced by `Number.toString(16)`. -/
def hexDigitChar (n : Nat) : Char :=
  if n < 10 then Char.ofNat (48 + n) else Char.ofNat (87 + n)

/-- Two-digit hex rendering of one byte
(`b.toString(16).padStart(2, '0')`; two digits exactly when `b < 256`). -/
def byteToHex (b : Nat) : List Char := [hexDigitChar (b / 16), hexDigitChar (b % 16)]

/-- Hex string of a byte buffer (`Array.from(x).map(toHex).join('')`). -/
def toHexChars (l : Bytes) : List Char := (l.map byteToHex).flatten

/-- Numeric value of one hex digit (`parseInt(_, 16)` on lowercase hex). -/
def hexVal (c : Char) : Nat :=
  if c.isDigit then c.toNat - 48 else c.toNat - 87

/-- Decode a hex string two characters at a time
(`hex.match(/.{1,2}/g).map(b => parseInt(b, 16))`). -/
def fromHexChars : List Char → Bytes
  | c1 :: c2 :: rest => (hexVal c1 * 16 + hexVal c2) :: fromHexChars rest
  | [c] => [hexVal c]
  | [] => []

theorem hexVal_hexDigitChar {n : Nat} (h : n < 16) : hexVal (hexDigitChar n) = n := by
  interval_cases n <;> decide

theorem fromHexChars_toHexChars {l : Bytes} (h : Bytes255 l) :
    fromHexChars (toHexChars l) = l := by
  induction l with
  | nil => rfl
  | cons b rest ih =>
    have hb : b < 256 := h b (List.mem_cons_self _ _)
    have h16a : b / 16 < 16 := by omega
    have h16b : b % 16 < 16 := by omega
    have : toHexChars (b :: rest) =
        hexDigitChar (b / 16) :: hexDigitChar (b % 16) :: toHexChars rest := by
      simp [toHexChars, byteToHex]
    rw [this, fromHexChars, hexVal_hexDigitChar h16a, hexVal_hexDigitChar h16b,
      ih (fun x hx => h x (List.mem_cons_of_mem _ hx))]
    congr 1
    omega

theorem toHexChars_ne_nil {l : Bytes} (h : l ≠ []) : toHexChars l ≠ [] := by
  cases l with
  | nil => exact absurd rfl h
  | cons b rest => simp [toHexChars, byteToHex]

/-! ## `SecureCryptoUtils` (src/utils/keyManager.ts, third section)

`calculateHash` renders the SHA-256 digest as a lowercase hex string.
`encryptChunk` prepends a fresh 12-byte IV to the AEAD ciphertext;
`decryptChunk` rejects inputs shorter than 12 bytes, then splits off the
IV and decrypts; a platform decryption failure surfaces as an error
(never as wrong plaintext).  `splitIntoChunks`/`combineChunks` are the
chunking utilities. -/

/-- `SecureCryptoUtils.calculateHash`: hex string of the digest. -/
def calculateHash (C : CryptoSpec) (data : Bytes) : List Char :=
  toHexChars (C.digest data)

/-- Errors of `SecureCryptoUtils.decryptChunk`. -/
inductive DecErr where
  | tooShort
  | authFailure
  deriving DecidableEq, Repr

/-- `SecureCryptoUtils.encryptChunk`: IV followed by the AEAD ciphertext
(the caller supplies the random 12-byte IV drawn by the source). -/
def encryptChunk (C : CryptoSpec) (key iv data : Bytes) : Bytes :=
  iv ++ C.aeadEncrypt key iv data

/-- `SecureCryptoUtils.decryptChunk`: reject data shorter than the 12-byte
IV, else split IV and ciphertext and AEAD-decrypt. -/
def decryptChunk (C : CryptoSpec) (key : Bytes) (data : Bytes) : Except DecErr Bytes :=
  if data.length < 12 then .error .tooShort
  else
    match C.aeadDecrypt key (data.take 12) (data.drop 12) with
    | some p => .ok p
    | none => .error .authFailure

/-- `SecureCryptoUtils.splitIntoChunks`: slices of `chunkSize` bytes. -/
def splitIntoChunks (cs : Nat) (buffer : Bytes) : List Bytes :=
  (List.range ((buffer.length + cs - 1) / cs)).map
    (fun i => (buffer.drop (i * cs)).take cs)

/-- `SecureCryptoUtils.combineChunks`: concatenation. -/
def combineChunks (chunks : List Bytes) : Bytes := chunks.flatten

theorem decryptChunk_encryptChunk (C : CryptoSpec) (key iv data : Bytes)
    (hiv : iv.length = 12) :
    decryptChunk C key (encryptChunk C key iv data) = .ok data := by
  unfold decryptChunk encryptChunk
  rw [if_neg (by simp [hiv]), List.take_append_of_le_length (by omega),
    List.take_of_length_le (by omega), List.drop_append_of_le_length (by omega)]
  have : iv.drop 12 = [] := by
    apply List.drop_eq_nil_of_le; omega
  rw [this, List.nil_append, C.dec_enc]

/-! ## `SecureKeyManager` (src/utils/keyManager.ts, second section)

The persisted state is modelled by `KeyStore`: the two record names
(`..._master_key_v1` and `..._master_key_encrypted_v1`) in each of the two
backends (localStorage primary, IndexedDB secondary), plus a flag for
whether the IndexedDB backend is available (its failures are absorbed:
reads resolve `null`, writes and clears are best-effort).  JSON
stringify/parse of a record is modelled as the identity round-trip. -/

/-- A persisted `WrappedKeyRecord` (the JSON the source stores). -/
structure StoredRecord where
  encrypted : Bool
  data : List Char
  timestamp : Nat
  imported : Bool
  deriving DecidableEq, Repr

/-- The key-store state across both backends. -/
structure KeyStore where
  localPlain : Option StoredRecord
  localEnc : Option StoredRecord
  idbPlain : Option StoredRecord
  idbEnc : Option StoredRecord
  idbAvailable : Bool
  deriving DecidableEq, Repr

/-- The empty state (no record anywhere). -/
def emptyStore (avail : Bool) : KeyStore :=
  ⟨none, none, none, none, avail⟩

/-- Errors of the key-retrieval path (spec §7 taxonomy; the source throws
`Error` objects with the corresponding messages). -/
inductive KeyErr where
  | keyNotFound
  | passwordRequired
  | authenticationFailure
  deriving DecidableEq, Repr

/-- `SecureKeyManager.calculateChecksum`: hex digest of the raw key. -/
def calculateChecksum (C : CryptoSpec) (data : Bytes) : List Char :=
  toHexChars (C.digest data)

/-- `SecureKeyManager.encryptKeyWithPassword`: PBKDF2-derive a key from the
password and a fresh 16-byte salt, AES-GCM-encrypt under a fresh 12-byte
IV, and hex-encode `salt ∥ iv ∥ ciphertext` (salt and IV are the random
values drawn by the source, passed here as arguments). -/
def encryptKeyWithPassword (C : CryptoSpec) (keyMaterial : Bytes)
    (password : List Char) (salt iv : Bytes) : List Char :=
  toHexChars (salt ++ iv ++ C.aeadEncrypt (C.deriveKey password salt) iv keyMaterial)

/-- `SecureKeyManager.decryptKeyWithPassword`: hex-decode, split
`salt(16) ∥ iv(12) ∥ ciphertext`, derive the key and AEAD-decrypt.
`none` models the platform rejection on wrong password or corruption. -/
def decryptKeyWithPassword (C : CryptoSpec) (encryptedHex : List Char)
    (password : List Char) : Option Bytes :=
  let encrypted := fromHexChars encryptedHex
  let salt := encrypted.take 16
  let iv := (encrypted.drop 16).take 12
  let ciphertext := encrypted.drop 28
  C.aeadDecrypt (C.deriveKey password salt) iv ciphertext

/-- Hex-decoding branch of `parseStoredKey` for unencrypted records: an
empty `data` makes `data.match(/.{1,2}/g)` return `null` and the forced
dereference throw (caught by the caller), modelled as `none`. -/
def parsePlainHex (s : List Char) : Option Bytes :=
  if s = [] then none else some (fromHexChars s)

/-- Body of `SecureKeyManager.parseStoredKey` before its catch-all: an
encrypted record with a password decrypts (platform rejection modelled as
`authenticationFailure`); an unencrypted record hex-decodes; an encrypted
record without a password throws `Password required for encrypted key`. -/
def parseStoredKeyInner (C : CryptoSpec) (rec : StoredRecord)
    (password : Option (List Char)) : Except KeyErr (Option Bytes) :=
  match rec.encrypted, password with
  | true, some p =>
    match decryptKeyWithPassword C rec.data p with
    | some k => .ok (some k)
    | none => .error .authenticationFailure
  | false, _ => .ok (parsePlainHex rec.data)
  | true, none => .error .passwordRequired

/-- `SecureKeyManager.parseStoredKey`: the surrounding `try/catch` turns
every failure of the body — including its own `Password required` throw —
into a logged warning and a `null` result. -/
def parseStoredKey (C : CryptoSpec) (rec : StoredRecord)
    (password : Option (List Char)) : Option Bytes :=
  match parseStoredKeyInner C rec password with
  | .ok v => v
  | .error _ => none

/-- `SecureKeyManager.getFromLocalStorage`: try the unencrypted record
name, then the encrypted one; return the first parse that succeeds. -/
def getFromLocalStorage (C : CryptoSpec) (st : KeyStore)
    (password : Option (List Char)) : Option Bytes :=
  (st.localPlain.bind (fun r => parseStoredKey C r password)).or
    (st.localEnc.bind (fun r => parseStoredKey C r password))

/-- `SecureKeyManager.getFromIndexedDB`: same two names against the
secondary backend; an unavailable backend resolves every read to `null`. -/
def getFromIndexedDB (C : CryptoSpec) (st : KeyStore)
    (password : Option (List Char)) : Option Bytes :=
  if st.idbAvailable then
    (st.idbPlain.bind (fun r => parseStoredKey C r password)).or
      (st.idbEnc.bind (fun r => parseStoredKey C r password))
  else none

/-- `SecureKeyManager.getMasterKey`: primary store first, fall back to the
secondary; if neither yields key bytes, throw `No master key found`. -/
def getMasterKey (C : CryptoSpec) (st : KeyStore)
    (password : Option (List Char)) : Except KeyErr Bytes :=
  match (getFromLocalStorage C st password).or (getFromIndexedDB C st password) with
  | some k => .ok k
  | none => .error .keyNotFound

/-- `SecureKeyManager.hasMasterKey`: probe both record names in
localStorage, then (errors tolerated) in IndexedDB. -/
def hasMasterKey (st : KeyStore) : Bool :=
  st.localPlain.isSome || st.localEnc.isSome ||
    (st.idbAvailable && (st.idbPlain.isSome || st.idbEnc.isSome))

/-- `SecureKeyManager.generateAndStoreMasterKey`: wrap the fresh 32-byte
key under the password when one is given (fresh salt and IV), else store
its raw hex; write the record to localStorage (primary, must succeed) and
best-effort mirror it to IndexedDB.  Returns the raw key hex and the new
state; `keyMaterial`, `salt`, `iv`, `ts` are the random values and clock
reading drawn by the source. -/
def generateAndStoreMasterKey (C : CryptoSpec) (st : KeyStore)
    (password : Option (List Char)) (keyMaterial salt iv : Bytes) (ts : Nat) :
    List Char × KeyStore :=
  match password with
  | some p =>
    let rec1 : StoredRecord :=
      ⟨true, encryptKeyWithPassword C keyMaterial p salt iv, ts, false⟩
    (toHexChars keyMaterial,
      { st with localEnc := some rec1,
                idbEnc := if st.idbAvailable then some rec1 else st.idbEnc })
  | none =>
    let rec1 : StoredRecord := ⟨false, toHexChars keyMaterial, ts, false⟩
    (toHexChars keyMaterial,
      { st with localPlain := some rec1,
                idbPlain := if st.idbAvailable then some rec1 else st.idbPlain })

/-- `SecureKeyManager.clearAllKeys`: delete every installation-prefixed
record from localStorage; clear IndexedDB best-effort (an unavailable
backend keeps its stale content, the failure is only logged). -/
def clearAllKeys (st : KeyStore) : KeyStore :=
  { localPlain := none, localEnc := none,
    idbPlain := if st.idbAvailable then none else st.idbPlain,
    idbEnc := if st.idbAvailable then none else st.idbEnc,
    idbAvailable := st.idbAvailable }

/-- A `BackupBlob`: the base64-encoded JSON the source builds in
`exportKeyForBackup` (base64 and JSON round-trips modelled as identity). -/
structure BackupBlob where
  timestamp : Nat
  data : List Char
  checksum : List Char
  deriving DecidableEq, Repr

/-- Errors raised inside the body of `importKeyFromBackup` before its
catch-all wraps them.  Unlike `generateAndStoreMasterKey`, the body has
no inner try/catch around its IndexedDB write, so a rejected secondary
write is one of the ways the body can throw. -/
inductive ImportErr where
  | authFailure
  | checksumMismatch
  | idbWriteFailure
  deriving DecidableEq, Repr

/-- `SecureKeyManager.exportKeyForBackup`: load the master key (no
password is forwarded to `getMasterKey`), wrap it under the supplied
password with fresh salt and IV, and attach `digest(rawKey)`. -/
def exportKeyForBackup (C : CryptoSpec) (st : KeyStore) (password : List Char)
    (salt iv : Bytes) (ts : Nat) : Except KeyErr BackupBlob :=
  match getMasterKey C st none with
  | .error e => .error e
  | .ok masterKey =>
    .ok ⟨ts, encryptKeyWithPassword C masterKey password salt iv,
      calculateChecksum C masterKey⟩

/-- Body of `SecureKeyManager.importKeyFromBackup` (the `try` block),
returning the resulting store state together with the outcome: unwrap
with the password — a platform rejection (wrong password or corrupted
data) throws here, before the checksum is ever compared — then recompute
the checksum and compare; on success write the key as an unencrypted
record marked `imported` to localStorage and then to IndexedDB.  The
IndexedDB write is *not* wrapped in an inner try/catch, so when that
backend is unavailable its rejection aborts the body — after the
localStorage write has already taken effect. -/
def importAttempt (C : CryptoSpec) (st : KeyStore) (blob : BackupBlob)
    (password : List Char) (ts : Nat) : KeyStore × Except ImportErr Unit :=
  match decryptKeyWithPassword C blob.data password with
  | none => (st, .error .authFailure)
  | some decryptedKey =>
    if calculateChecksum C decryptedKey = blob.checksum then
      let rec1 : StoredRecord := ⟨false, toHexChars decryptedKey, ts, true⟩
      if st.idbAvailable then
        ({ st with localPlain := some rec1, idbPlain := some rec1 }, .ok ())
      else
        ({ st with localPlain := some rec1 }, .error .idbWriteFailure)
    else (st, .error .checksumMismatch)

/-- `SecureKeyManager.importKeyFromBackup`: the catch-all turns every
failure of the body into the single generic
`Failed to import key - check your backup string and password` error, so
the caller cannot tell an unwrap rejection from a checksum mismatch or a
failed secondary write; state already persisted by the body stays. -/
def importKeyFromBackup (C : CryptoSpec) (st : KeyStore) (blob : BackupBlob)
    (password : List Char) (ts : Nat) : KeyStore × Except Unit Unit :=
  match importAttempt C st blob password ts with
  | (st', .ok ()) => (st', .ok ())
  | (st', .error _) => (st', .error ())

/-! ## Names and decimal rendering

Chunk artifacts are named `{basename}_chunk_{index padded to 4}.enc`, the
metadata file `{basename}_metadata.json` (the basename and extension the
source computes from `file.name.split('.')` are taken as parameters). -/

/-- One decimal digit character. -/
def digitCh (d : Nat) : Char := Char.ofNat (48 + d)

/-- Decimal rendering of a natural (`i.toString()`), most significant
digit first, no leading zeros. -/
def natDigits (n : Nat) : List Char :=
  if n < 10 then [digitCh n] else natDigits (n / 10) ++ [digitCh (n % 10)]
termination_by n
decreasing_by exact Nat.div_lt_self (by omega) (by omega)

/-- `i.toString().padStart(4, '0')`. -/
def padded4 (i : Nat) : List Char :=
  List.replicate (4 - (natDigits i).length) '0' ++ natDigits i

/-- The scanning window of the `/chunk_(\d+)/` pattern. -/
def chunkTag : List Char := "chunk_".toList

/-- The `_chunk_` filename separator. -/
def chunkSep : List Char := "_chunk_".toList

/-- The `.enc` chunk-file suffix. -/
def encSuffix : List Char := ".enc".toList

/-- The `_metadata.json` metadata-file suffix. -/
def metaSuffix : List Char := "_metadata.json".toList

/-- The `composite` hash-type marker. -/
def compositeStr : List Char := "composite".toList

/-- Chunk artifact filename `{base}_chunk_{0000}.enc`. -/
def chunkName (base : List Char) (i : Nat) : List Char :=
  base ++ chunkSep ++ padded4 i ++ encSuffix

/-- Metadata filename `{base}_metadata.json`. -/
def metadataName (base : List Char) : List Char := base ++ metaSuffix

/-- `String.prototype.endsWith`. -/
def endsWithL (suf l : List Char) : Bool := suf.isSuffixOf l

/-- Value of a digit run (`parseInt` on decimal digits). -/
def digitsVal (ds : List Char) : Nat :=
  ds.foldl (fun a c => a * 10 + (c.toNat - 48)) 0

/-- One position of the `/chunk_(\d+)/` search: succeed when `chunk_`
followed by at least one digit starts here, capturing the maximal digit
run. -/
def matchHead (l : List Char) : Option Nat :=
  if chunkTag.isPrefixOf l && ((l.drop 6).headD 'x').isDigit then
    some (digitsVal ((l.drop 6).takeWhile Char.isDigit))
  else none

/-- `name.match(/chunk_(\d+)/)`: first matching position wins. -/
def findChunkNum : List Char → Option Nat
  | [] => none
  | c :: r =>
    match matchHead (c :: r) with
    | some v => some v
    | none => findChunkNum r

/-- Sort key of a chunk filename: the parsed index, `0` when the pattern
does not match (`aMatch ? parseInt(aMatch[1]) : 0`). -/
def chunkKey (name : List Char) : Nat := (findChunkNum name).getD 0

/-- Stable sort by a numeric key, modelling `Array.prototype.sort` with
the comparator `(a, b) => aNum - bNum` (required stable). -/
def sortByKey {α : Type} (k : α → Nat) (l : List α) : List α :=
  List.insertionSort (fun a b => k a ≤ k b) l

/-! ## `FileEncryptionService.encryptFileGenerator`
(src/services/fileEncryptionService.ts, second section) -/

/-- The terminal `FileMetadata` value. -/
structure FileMetadata where
  originalFileName : List Char
  originalExtension : List Char
  originalSize : Nat
  totalChunks : Nat
  timestamp : Nat
  hash : List Char
  hashType : List Char
  chunkSize : Nat
  deriving DecidableEq, Repr

/-- One yielded chunk artifact (`{ blob, filename, index }`). -/
structure ChunkArtifact where
  data : Bytes
  filename : List Char
  index : Nat
  deriving DecidableEq, Repr

/-- `Math.ceil(size / chunkSize)` over naturals (`chunkSize > 0`). -/
def mathCeilDiv (a b : Nat) : Nat := (a + b - 1) / b

/-- `file.slice(start, end)`. -/
def sliceB (start stop : Nat) (l : Bytes) : Bytes := (l.drop start).take (stop - start)

/-- The `i`-th plaintext chunk:
`file.slice(i*chunkSize, min(i*chunkSize + chunkSize, file.size))`. -/
def fileChunk (cs : Nat) (content : Bytes) (i : Nat) : Bytes :=
  sliceB (i * cs) (min (i * cs + cs) content.length) content

/-- UTF-8 bytes of an ASCII string (`new TextEncoder().encode(_)`). -/
def charCodes (l : List Char) : Bytes := l.map Char.toNat

/-- `FileEncryptionService.encryptFileGenerator`: for each index in order,
slice the chunk, record `calculateHash(chunk)`, encrypt under a fresh
12-byte IV (`ivs i` is the randomness the source draws), and yield the
artifact; after the last chunk emit the terminal metadata whose `hash` is
the digest of the concatenated chunk hashes and whose `hashType` is
`composite`.  The lazy sequence is modelled by the list of artifacts in
yield order. -/
def encryptFileGenerator (C : CryptoSpec) (key : Bytes) (ivs : Nat → Bytes)
    (base ext : List Char) (cs : Nat) (ts : Nat) (content : Bytes) :
    List ChunkArtifact × FileMetadata :=
  let totalChunks := mathCeilDiv content.length cs
  let chunkHashes := (List.range totalChunks).map
    (fun i => calculateHash C (fileChunk cs content i))
  let artifacts := (List.range totalChunks).map
    (fun i => ChunkArtifact.mk
      (encryptChunk C key (ivs i) (fileChunk cs content i)) (chunkName base i) i)
  let finalHash := calculateHash C (charCodes chunkHashes.flatten)
  (artifacts,
    ⟨base, ext, content.length, totalChunks, ts, finalHash, compositeStr, cs⟩)

/-! ## `FileReconstructionService`
(src/services/fileReconstructionService.ts) -/

/-- Content of a supplied file: raw bytes, or a metadata document (JSON
serialization and parsing are modelled as identity; reading a metadata
document as chunk bytes yields its opaque serialized form, modelled `[]`). -/
inductive FileContent where
  | bytes (data : Bytes)
  | meta (md : FileMetadata)
  deriving DecidableEq, Repr

/-- A named input file (one element of the `FileList` / one zip entry). -/
structure NamedFile where
  name : List Char
  content : FileContent
  deriving DecidableEq, Repr

/-- Bytes obtained by `file.arrayBuffer()`. -/
def FileContent.asBytes : FileContent → Bytes
  | .bytes d => d
  | .meta _ => []

/-- Result of `JSON.parse(await file.text())` against the metadata schema. -/
def FileContent.asMeta : FileContent → Option FileMetadata
  | .meta m => some m
  | .bytes _ => none

/-- Failure modes of the reconstruction entry points (spec §7; the source
throws `Error` objects with the corresponding messages). -/
inductive RErr where
  | metadataNotFound
  | malformedMetadata
  | chunkCountMismatch
  | chunkDecryptionFailure (i : Nat)
  | decryptFailed
  | userCancelled
  deriving DecidableEq, Repr

/-- Successful result of `reconstructFromChunks`: the decrypted chunks in
order (returned without concatenation), the parsed metadata, and the
verification verdict. -/
structure RecResult where
  reconstructed : List Bytes
  metadata : FileMetadata
  hashMatch : Bool
  deriving DecidableEq, Repr

/-- Chunk selection of the loose-file path: keep names ending in `.enc`,
sort by the numeric index parsed from the filename. -/
def looseChunkFiles (files : List NamedFile) : List NamedFile :=
  sortByKey (fun f => chunkKey f.name)
    (files.filter (fun f => endsWithL encSuffix f.name))

/-- The decryption loop of `reconstructFromChunks`: each file is read and
decrypted; a failure at position `i` aborts with
`Failed to decrypt chunk i (name)`. -/
def decryptLoop (C : CryptoSpec) (key : Bytes) :
    List NamedFile → Nat → Except RErr (List Bytes)
  | [], _ => .ok []
  | f :: fs, i =>
    match decryptChunk C key f.content.asBytes with
    | .error _ => .error (.chunkDecryptionFailure i)
    | .ok p =>
      match decryptLoop C key fs (i + 1) with
      | .error e => .error e
      | .ok ps => .ok (p :: ps)

/-- `FileReconstructionService.reconstructFromChunks`: locate the one
metadata file, parse it, select and sort the chunk files, fail when their
count differs from `totalChunks`, decrypt in order, then verify: the
composite path digests the concatenated per-chunk hex hashes; the legacy
path digests the whole reconstructed buffer inside a `try` whose catch
(`memOk = false`, e.g. out of memory) assumes a pass.  A failed verdict
falls to a `confirm` dialog (`userOverride`); acceptance returns the
chunks with `hashMatch` as a verdict. -/
def reconstructFromChunks (C : CryptoSpec) (key : Bytes)
    (memOk userOverride : Bool) (files : List NamedFile) :
    Except RErr RecResult :=
  match files.find? (fun f => endsWithL metaSuffix f.name) with
  | none => .error .metadataNotFound
  | some mf =>
    match mf.content.asMeta with
    | none => .error .malformedMetadata
    | some metadata =>
      let chunkFiles := looseChunkFiles files
      if chunkFiles.length ≠ metadata.totalChunks then .error .chunkCountMismatch
      else
        match decryptLoop C key chunkFiles 0 with
        | .error e => .error e
        | .ok decryptedChunks =>
          let hashMatch : Bool :=
            if metadata.hashType = compositeStr then
              calculateHash C
                (charCodes ((decryptedChunks.map (calculateHash C)).flatten))
                = metadata.hash
            else if memOk then
              calculateHash C (combineChunks decryptedChunks) = metadata.hash
            else true
          if !hashMatch && !userOverride then .error .userCancelled
          else .ok ⟨decryptedChunks, metadata, hashMatch⟩

/-- Successful result of `reconstructFromZip`: the decrypted chunks that
make up the downloaded blob, and the verdict that gated the dialog. -/
structure ZipResult where
  payload : List Bytes
  hashMatch : Bool
  deriving DecidableEq, Repr

/-- Chunk selection of the archive path (duplicated in the source): keep
entry names ending in `.enc`, sort by the parsed numeric index. -/
def zipChunkFiles (entries : List NamedFile) : List NamedFile :=
  sortByKey (fun f => chunkKey f.name)
    (entries.filter (fun f => endsWithL encSuffix f.name))

/-- The decryption loop of `reconstructFromZip`: no per-index wrapper —
a platform failure propagates raw. -/
def zipDecryptLoop (C : CryptoSpec) (key : Bytes) :
    List NamedFile → Except RErr (List Bytes)
  | [] => .ok []
  | f :: fs =>
    match decryptChunk C key f.content.asBytes with
    | .error _ => .error .decryptFailed
    | .ok p =>
      match zipDecryptLoop C key fs with
      | .error e => .error e
      | .ok ps => .ok (p :: ps)

/-- `FileReconstructionService.reconstructFromZip`: locate the metadata
entry and the chunk entries, sort the chunks by parsed index, decrypt
them all — there is no count validation against `totalChunks` — verify
(legacy verification here has no try/catch), and deliver the blob, with
the failed-verdict `confirm` dialog as in the loose path. -/
def reconstructFromZip (C : CryptoSpec) (key : Bytes) (userOverride : Bool)
    (entries : List NamedFile) : Except RErr ZipResult :=
  match entries.find? (fun f => endsWithL metaSuffix f.name) with
  | none => .error .metadataNotFound
  | some mf =>
    match mf.content.asMeta with
    | none => .error .malformedMetadata
    | some metadata =>
      let chunkFiles := zipChunkFiles entries
      match zipDecryptLoop C key chunkFiles with
      | .error e => .error e
      | .ok decryptedChunks =>
        let hashMatch : Bool :=
          if metadata.hashType = compositeStr then
            calculateHash C
              (charCodes ((decryptedChunks.map (calculateHash C)).flatten))
              = metadata.hash
          else
            calculateHash C (combineChunks decryptedChunks) = metadata.hash
        if !hashMatch && !userOverride then .error .userCancelled
        else .ok ⟨decryptedChunks, hashMatch⟩

/-! ## Key lifecycle (C9, C10, C3, C2) -/

/-- C9: over the key-store state, `hasMasterKey()` is `false` in the empty
initial state, `true` in every state a successful
`generateAndStoreMasterKey` (with or without a password) produces, and
`false` again in every state `clearAllKeys` produces. -/
theorem hasMasterKey_lifecycle :
    (∀ a, hasMasterKey (emptyStore a) = false) ∧
    (∀ C st pw km salt iv ts,
      hasMasterKey (generateAndStoreMasterKey C st pw km salt iv ts).2 = true) ∧
    (∀ st, hasMasterKey (clearAllKeys st) = false) := by
  refine ⟨fun a => by cases a <;> rfl, ?_, ?_⟩
  · intro C st pw km salt iv ts
    cases pw <;> simp [hasMasterKey, generateAndStoreMasterKey]
  · intro st
    cases h : st.idbAvailable <;> simp [hasMasterKey, clearAllKeys, h]

/-- C10: an input shorter than 12 bytes cannot contain the 12-byte IV;
`decryptChunk` rejects it with the invalid-data error before the IV slice
or any decryption call. -/
theorem decryptChunk_too_short (C : CryptoSpec) (key data : Bytes)
    (h : data.length < 12) : decryptChunk C key data = .error .tooShort := by
  unfold decryptChunk
  rw [if_pos h]

/-- Witness for C10 at the empty input. -/
theorem decryptChunk_too_short_witness :
    ([] : Bytes).length < 12 ∧
      decryptChunk idealCrypto [] [] = .error .tooShort :=
  ⟨by decide, decryptChunk_too_short idealCrypto [] [] (by decide)⟩

/-- C3 (divergence): when the only stored record is encrypted and no
password is supplied, `parseStoredKey` throws `Password required for
encrypted key` but its own catch-all swallows the throw and returns
`null`, so `getMasterKey` falls through both stores and fails with
`KeyNotFound` — not with `PasswordRequired` as specified. -/
theorem getMasterKey_encrypted_no_password (C : CryptoSpec) (r : StoredRecord)
    (a : Bool) (hr : r.encrypted = true) :
    getMasterKey C ⟨none, some r, none, none, a⟩ none = .error .keyNotFound := by
  unfold getMasterKey getFromLocalStorage getFromIndexedDB parseStoredKey
    parseStoredKeyInner
  cases a <;> simp [hr]

/-- Witness for C3's divergence at a concrete encrypted-only state. -/
theorem getMasterKey_encrypted_no_password_witness :
    (StoredRecord.mk true [] 0 false).encrypted = true ∧
      getMasterKey idealCrypto
        ⟨none, some (StoredRecord.mk true [] 0 false), none, none, false⟩ none
        = .error .keyNotFound :=
  ⟨rfl, getMasterKey_encrypted_no_password idealCrypto _ false rfl⟩

theorem decryptKey_encryptKey (C : CryptoSpec) (km : Bytes) (pw : List Char)
    (salt iv : Bytes) (hs : salt.length = 16) (hi : iv.length = 12)
    (hbs : Bytes255 salt) (hbi : Bytes255 iv) (hbk : Bytes255 km) :
    decryptKeyWithPassword C (encryptKeyWithPassword C km pw salt iv) pw
      = some km := by
  unfold decryptKeyWithPassword encryptKeyWithPassword
  have hball : Bytes255 (salt ++ iv ++ C.aeadEncrypt (C.deriveKey pw salt) iv km) := by
    intro b hb
    simp only [List.append_assoc, List.mem_append] at hb
    rcases hb with h | h | h
    · exact hbs _ h
    · exact hbi _ h
    · exact C.enc_bytes _ _ _ (C.derive_bytes pw salt) hbi hbk _ h
  rw [fromHexChars_toHexChars hball]
  have h1 : (salt ++ iv ++ C.aeadEncrypt (C.deriveKey pw salt) iv km).take 16
      = salt := by
    rw [List.take_append_of_le_length (by simp; omega),
      List.take_append_of_le_length (by omega), List.take_of_length_le (by omega)]
  have h2 : (salt ++ iv ++ C.aeadEncrypt (C.deriveKey pw salt) iv km).drop 16
      = iv ++ C.aeadEncrypt (C.deriveKey pw salt) iv km := by
    rw [List.append_assoc]
    rw [show (16 : Nat) = salt.length from hs.symm, List.drop_left]
  have h3 : (iv ++ C.aeadEncrypt (C.deriveKey pw salt) iv km).take 12 = iv := by
    rw [List.take_append_of_le_length (by omega), List.take_of_length_le (by omega)]
  have h4 : (salt ++ iv ++ C.aeadEncrypt (C.deriveKey pw salt) iv km).drop 28
      = C.aeadEncrypt (C.deriveKey pw salt) iv km := by
    rw [show (28 : Nat) = (salt ++ iv).length by simp [hs, hi], List.drop_left]
  simp only [h1, h2, h3, h4]
  exact C.dec_enc _ _ _

theorem decryptKey_wrong_password (C : CryptoSpec) (km : Bytes)
    (pw pw' : List Char) (salt iv : Bytes) (hs : salt.length = 16)
    (hi : iv.length = 12) (hbs : Bytes255 salt) (hbi : Bytes255 iv)
    (hbk : Bytes255 km)
    (hne : C.deriveKey pw salt ≠ C.deriveKey pw' salt) :
    decryptKeyWithPassword C (encryptKeyWithPassword C km pw salt iv) pw'
      = none := by
  unfold decryptKeyWithPassword encryptKeyWithPassword
  have hball : Bytes255 (salt ++ iv ++ C.aeadEncrypt (C.deriveKey pw salt) iv km) := by
    intro b hb
    simp only [List.append_assoc, List.mem_append] at hb
    rcases hb with h | h | h
    · exact hbs _ h
    · exact hbi _ h
    · exact C.enc_bytes _ _ _ (C.derive_bytes pw salt) hbi hbk _ h
  rw [fromHexChars_toHexChars hball]
  have h1 : (salt ++ iv ++ C.aeadEncrypt (C.deriveKey pw salt) iv km).take 16
      = salt := by
    rw [List.take_append_of_le_length (by simp; omega),
      List.take_append_of_le_length (by omega), List.take_of_length_le (by omega)]
  have h2 : (salt ++ iv ++ C.aeadEncrypt (C.deriveKey pw salt) iv km).drop 16
      = iv ++ C.aeadEncrypt (C.deriveKey pw salt) iv km := by
    rw [List.append_assoc]
    rw [show (16 : Nat) = salt.length from hs.symm, List.drop_left]
  have h3 : (iv ++ C.aeadEncrypt (C.deriveKey pw salt) iv km).take 12 = iv := by
    rw [List.take_append_of_le_length (by omega), List.take_of_length_le (by omega)]
  have h4 : (salt ++ iv ++ C.aeadEncrypt (C.deriveKey pw salt) iv km).drop 28
      = C.aeadEncrypt (C.deriveKey pw salt) iv km := by
    rw [show (28 : Nat) = (salt ++ iv).length by simp [hs, hi], List.drop_left]
  simp only [h1, h2, h3, h4]
  exact C.wrong_key _ _ _ _ hne

/-- C2 (amended): exporting the stored master key under a password and
importing the blob with the same password persists a localStorage record
whose data decodes to the original raw key bytes; the import reports
success exactly when the secondary IndexedDB write also goes through —
an unavailable secondary backend makes the un-guarded write reject, so
the body throws after the localStorage write and the caller sees the
generic import failure.  Importing with a wrong password (one whose
derived key differs) is rejected by the AEAD unwrap — the body fails
before the checksum comparison, the catch-all surfaces the single
generic import failure — and the state is left untouched: no incorrect
key is ever stored or returned. -/
theorem backup_export_import_roundtrip (C : CryptoSpec) (st st2 : KeyStore)
    (km : Bytes) (r : StoredRecord) (pw pw' : List Char) (salt iv : Bytes)
    (ts ts2 ts3 : Nat)
    (hs : salt.length = 16) (hi : iv.length = 12)
    (hbs : Bytes255 salt) (hbi : Bytes255 iv) (hbk : Bytes255 km)
    (hk32 : km.length = 32) (hkne : km ≠ [])
    (hre : r.encrypted = false) (hrd : r.data = toHexChars km)
    (hst : st.localPlain = some r)
    (hne : C.deriveKey pw salt ≠ C.deriveKey pw' salt) :
    ∃ blob, exportKeyForBackup C st pw salt iv ts2 = .ok blob ∧
      (st2.idbAvailable = true →
        ∃ st', importAttempt C st2 blob pw ts3 = (st', .ok ()) ∧
          ∃ r', st'.localPlain = some r' ∧ r'.encrypted = false ∧
            fromHexChars r'.data = km) ∧
      (st2.idbAvailable = false →
        ∃ st', importAttempt C st2 blob pw ts3
            = (st', .error .idbWriteFailure) ∧
          ∃ r', st'.localPlain = some r' ∧ r'.encrypted = false ∧
            fromHexChars r'.data = km) ∧
      importAttempt C st2 blob pw' ts3 = (st2, .error .authFailure) ∧
      importKeyFromBackup C st2 blob pw' ts3 = (st2, .error ()) := by
  have hget : getMasterKey C st none = .ok km := by
    unfold getMasterKey getFromLocalStorage
    rw [hst]
    simp only [Option.some_bind]
    unfold parseStoredKey parseStoredKeyInner
    rw [hre]
    simp only
    unfold parsePlainHex
    rw [hrd, if_neg (toHexChars_ne_nil hkne), fromHexChars_toHexChars hbk]
    rfl
  refine ⟨⟨ts2, encryptKeyWithPassword C km pw salt iv, calculateChecksum C km⟩,
    ?_, ?_, ?_, ?_, ?_⟩
  · unfold exportKeyForBackup
    rw [hget]
  · intro hidb
    unfold importAttempt
    rw [decryptKey_encryptKey C km pw salt iv hs hi hbs hbi hbk]
    simp only [if_pos rfl, hidb, if_true]
    exact ⟨_, rfl, _, rfl, rfl, fromHexChars_toHexChars hbk⟩
  · intro hidb
    unfold importAttempt
    rw [decryptKey_encryptKey C km pw salt iv hs hi hbs hbi hbk]
    simp only [if_pos rfl, hidb, if_false, Bool.false_eq_true]
    exact ⟨_, rfl, _, rfl, rfl, fromHexChars_toHexChars hbk⟩
  · unfold importAttempt
    rw [decryptKey_wrong_password C km pw pw' salt iv hs hi hbs hbi hbk hne]
  · unfold importKeyFromBackup importAttempt
    rw [decryptKey_wrong_password C km pw pw' salt iv hs hi hbs hbi hbk hne]

/-- Witness for C2 at concrete values: the export, a successful import
with the right password against an available secondary backend, the
generic failure with a stale-but-correct localStorage record against an
unavailable one, and the wrong-password rejection. -/
theorem backup_export_import_roundtrip_witness :
    idealCrypto.deriveKey ([Char.ofNat 97]) (List.replicate 16 1) ≠
      idealCrypto.deriveKey ([Char.ofNat 98]) (List.replicate 16 1) ∧
    (∃ blob,
      exportKeyForBackup idealCrypto
        ⟨some ⟨false, toHexChars (List.replicate 32 0), 0, false⟩,
          none, none, none, false⟩
        [Char.ofNat 97] (List.replicate 16 1) (List.replicate 12 2) 0
        = .ok blob ∧
      ((emptyStore true).idbAvailable = true →
        ∃ st', importAttempt idealCrypto (emptyStore true) blob [Char.ofNat 97] 0
            = (st', .ok ()) ∧
          ∃ r', st'.localPlain = some r' ∧ r'.encrypted = false ∧
            fromHexChars r'.data = List.replicate 32 0) ∧
      importAttempt idealCrypto (emptyStore true) blob [Char.ofNat 98] 0
        = (emptyStore true, .error .authFailure) ∧
      importKeyFromBackup idealCrypto (emptyStore true) blob [Char.ofNat 98] 0
        = (emptyStore true, .error ())) ∧
    (∃ blob,
      exportKeyForBackup idealCrypto
        ⟨some ⟨false, toHexChars (List.replicate 32 0), 0, false⟩,
          none, none, none, false⟩
        [Char.ofNat 97] (List.replicate 16 1) (List.replicate 12 2) 0
        = .ok blob ∧
      ((emptyStore false).idbAvailable = false →
        ∃ st', importAttempt idealCrypto (emptyStore false) blob [Char.ofNat 97] 0
            = (st', .error .idbWriteFailure) ∧
          ∃ r', st'.localPlain = some r' ∧ r'.encrypted = false ∧
            fromHexChars r'.data = List.replicate 32 0)) :=
  ⟨by decide,
    (fun h => ⟨h.choose, h.choose_spec.1, h.choose_spec.2.1, h.choose_spec.2.2.2⟩)
      (backup_export_import_roundtrip idealCrypto
        ⟨some ⟨false, toHexChars (List.replicate 32 0), 0, false⟩,
          none, none, none, false⟩
        (emptyStore true) (List.replicate 32 0)
        ⟨false, toHexChars (List.replicate 32 0), 0, false⟩
        [Char.ofNat 97] [Char.ofNat 98] (List.replicate 16 1)
        (List.replicate 12 2)
        0 0 0 (by decide) (by decide) (by decide) (by decide) (by decide)
        (by decide) (by decide) rfl rfl rfl (by decide)),
    (fun h => ⟨h.choose, h.choose_spec.1, h.choose_spec.2.2.1⟩)
      (backup_export_import_roundtrip idealCrypto
        ⟨some ⟨false, toHexChars (List.replicate 32 0), 0, false⟩,
          none, none, none, false⟩
        (emptyStore false) (List.replicate 32 0)
        ⟨false, toHexChars (List.replicate 32 0), 0, false⟩
        [Char.ofNat 97] [Char.ofNat 98] (List.replicate 16 1)
        (List.replicate 12 2)
        0 0 0 (by decide) (by decide) (by decide) (by decide) (by decide)
        (by decide) (by decide) rfl rfl rfl (by decide))⟩

/-- Counterexample for C2 as stated: at a concrete backup and a wrong
password, the import body fails in the password unwrap
(`decryptKeyWithPassword` rejects) — the `ChecksumMismatch` comparison is
never reached, so the failure is not the checksum mismatch the claim
names. -/
theorem import_wrong_password_not_checksum :
    importAttempt idealCrypto (emptyStore false)
      ⟨0,
        encryptKeyWithPassword idealCrypto (List.replicate 32 0) [Char.ofNat 97]
          (List.replicate 16 1) (List.replicate 12 2),
        calculateChecksum idealCrypto (List.replicate 32 0)⟩
      [Char.ofNat 98] 0 = (emptyStore false, .error .authFailure) ∧
    ImportErr.authFailure ≠ ImportErr.checksumMismatch := by
  exact ⟨by decide, by decide⟩

/-! ## Chunk selection and count validation (C5, C4) -/

/-- C5: the loose path selects exactly the files matching the chunk-name
pattern (`.enc` suffix), orders them by the numeric index parsed from the
filename (the selection is sorted under the parsed-index key and is a
permutation of the filtered set — not a lexicographic string sort), and a
selection count that differs from `metadata.totalChunks` aborts with
`ChunkCountMismatch` before any decryption, returning no output. -/
theorem reconstructFromChunks_count_mismatch (C : CryptoSpec) (key : Bytes)
    (memOk uo : Bool) (files : List NamedFile) (mf : NamedFile)
    (md : FileMetadata)
    (hfind : files.find? (fun f => endsWithL metaSuffix f.name) = some mf)
    (hmeta : mf.content.asMeta = some md)
    (hcount : (looseChunkFiles files).length ≠ md.totalChunks) :
    (looseChunkFiles files).Pairwise
      (fun a b => chunkKey a.name ≤ chunkKey b.name) ∧
    (looseChunkFiles files).Perm
      (files.filter (fun f => endsWithL encSuffix f.name)) ∧
    reconstructFromChunks C key memOk uo files = .error .chunkCountMismatch := by
  refine ⟨?_, ?_, ?_⟩
  · letI : IsTotal NamedFile (fun a b => chunkKey a.name ≤ chunkKey b.name) :=
      ⟨fun a b => Nat.le_total _ _⟩
    letI : IsTrans NamedFile (fun a b => chunkKey a.name ≤ chunkKey b.name) :=
      ⟨fun a b c => Nat.le_trans⟩
    exact List.sorted_insertionSort _ _
  · exact List.perm_insertionSort _ _
  · unfold reconstructFromChunks
    rw [hfind]
    simp only [hmeta]
    rw [if_pos hcount]

/-- A concrete metadata value declaring five chunks. -/
def fiveChunkMeta : FileMetadata := ⟨['b'], ['x'], 5, 5, 0, [], compositeStr, 1⟩

/-- A concrete metadata file for `fiveChunkMeta`. -/
def fiveChunkMetaFile : NamedFile :=
  ⟨['b', '_', 'm', 'e', 't', 'a', 'd', 'a', 't', 'a', '.', 'j', 's', 'o', 'n'],
    FileContent.meta fiveChunkMeta⟩

/-- A concrete loose file set: metadata declaring five chunks, but only two
chunk files (indices 10 and 2 — numeric order 2 before 10, while the
lexicographic string order would put `10` first). -/
def shortChunkSet : List NamedFile :=
  [⟨['b', '_', 'c', 'h', 'u', 'n', 'k', '_', '1', '0', '.', 'e', 'n', 'c'],
      FileContent.bytes []⟩,
    ⟨['b', '_', 'c', 'h', 'u', 'n', 'k', '_', '2', '.', 'e', 'n', 'c'],
      FileContent.bytes []⟩,
    fiveChunkMetaFile]

/-- Witness for C5: metadata declares 5 chunks, only two chunk files are
supplied, and reconstruction fails with the count mismatch. -/
theorem reconstructFromChunks_count_mismatch_witness :
    shortChunkSet.find? (fun f => endsWithL metaSuffix f.name)
      = some fiveChunkMetaFile ∧
    (looseChunkFiles shortChunkSet).length ≠ fiveChunkMeta.totalChunks ∧
    reconstructFromChunks idealCrypto [] true true shortChunkSet
      = .error .chunkCountMismatch :=
  ⟨by decide, by decide,
    (reconstructFromChunks_count_mismatch idealCrypto [] true true shortChunkSet
      fiveChunkMetaFile fiveChunkMeta (by decide) (by decide) (by decide)).2.2⟩

theorem zipDecryptLoop_ne_count_mismatch (C : CryptoSpec) (key : Bytes) :
    ∀ l : List NamedFile,
      zipDecryptLoop C key l ≠ .error .chunkCountMismatch := by
  intro l
  induction l with
  | nil => simp [zipDecryptLoop]
  | cons f fs ih =>
    unfold zipDecryptLoop
    cases hd : decryptChunk C key f.content.asBytes with
    | error e => simp
    | ok p =>
      cases ht : zipDecryptLoop C key fs with
      | error e =>
        simp only
        intro hc
        injection hc with hc
        subst hc
        exact ih ht
      | ok ps => simp

/-- C4 (amended): the container-archive path locates the metadata entry
and the chunk entries and applies the same numeric-index sort as the
loose-file path, but it performs no count validation: no input ever
produces `ChunkCountMismatch`, and a chunk-count deficit goes straight to
decryption. -/
theorem reconstructFromZip_no_count_check :
    (∀ entries, zipChunkFiles entries = looseChunkFiles entries) ∧
    (∀ (C : CryptoSpec) (key : Bytes) (uo : Bool) (entries : List NamedFile),
      reconstructFromZip C key uo entries ≠ .error .chunkCountMismatch) := by
  constructor
  · intro entries
    rfl
  · intro C key uo entries h
    unfold reconstructFromZip at h
    cases hf : entries.find? (fun f => endsWithL metaSuffix f.name) with
    | none => rw [hf] at h; exact absurd h (by simp)
    | some mf =>
      rw [hf] at h
      cases hm : mf.content.asMeta with
      | none => simp [hm] at h
      | some md =>
        simp only [hm] at h
        cases hl : zipDecryptLoop C key (zipChunkFiles entries) with
        | error e =>
          rw [hl] at h
          injection h with h
          subst h
          exact zipDecryptLoop_ne_count_mismatch C key _ hl
        | ok ps =>
          rw [hl] at h
          dsimp only at h
          split at h <;> split at h <;> simp at h

/-- A concrete container archive: metadata declaring five chunks but a
single (validly encrypted) chunk entry. -/
def zipShortArchive : List NamedFile :=
  [⟨['c', '_', 'c', 'h', 'u', 'n', 'k', '_', '0', '.', 'e', 'n', 'c'],
      FileContent.bytes (encryptChunk idealCrypto [1] (List.replicate 12 0) [5])⟩,
    ⟨['c', '_', 'm', 'e', 't', 'a', 'd', 'a', 't', 'a', '.', 'j', 's', 'o', 'n'],
      FileContent.meta ⟨['c'], ['x'], 1, 5, 0, [], compositeStr, 1⟩⟩]

/-- Counterexample for C4 as stated: the archive declares `totalChunks = 5`
but holds one chunk entry; instead of failing with `ChunkCountMismatch`
before decrypting, `reconstructFromZip` decrypts the chunk and returns it
(the count deficit surfaces only as a failed hash verdict that the
caller's override accepts). -/
theorem reconstructFromZip_count_counterexample :
    (zipChunkFiles zipShortArchive).length = 1 ∧
    reconstructFromZip idealCrypto [1] true zipShortArchive
      = .ok ⟨[[5]], false⟩ := by
  exact ⟨by decide, by decide⟩

/-! ## Tamper detection (C7) and legacy verification (C8) -/

/-- A default file used by positional access in statements. -/
def blankFile : NamedFile := ⟨[], FileContent.bytes []⟩

theorem decryptChunk_of_inauthentic (C : CryptoSpec) (key data : Bytes)
    (hbad : ∀ iv p, iv.length = 12 → data ≠ iv ++ C.aeadEncrypt key iv p) :
    ∃ e, decryptChunk C key data = .error e := by
  unfold decryptChunk
  by_cases hlen : data.length < 12
  · exact ⟨.tooShort, by rw [if_pos hlen]⟩
  · rw [if_neg hlen]
    cases hd : C.aeadDecrypt key (data.take 12) (data.drop 12) with
    | none => exact ⟨.authFailure, rfl⟩
    | some p =>
      exfalso
      have hc := C.auth_enc _ _ _ _ hd
      refine hbad (data.take 12) p ?_ ?_
      · rw [List.length_take]; omega
      · rw [← hc, List.take_append_drop]

theorem decryptLoop_fails_at (C : CryptoSpec) (key : Bytes) :
    ∀ (l : List NamedFile) (s i : Nat), i < l.length →
      (∀ j, j < i →
        (decryptChunk C key ((l.getD j blankFile).content.asBytes)).isOk = true) →
      (∃ e, decryptChunk C key ((l.getD i blankFile).content.asBytes) = .error e) →
      decryptLoop C key l s = .error (.chunkDecryptionFailure (s + i)) := by
  intro l
  induction l with
  | nil => intro s i hi; simp at hi
  | cons f fs ih =>
    intro s i hi hprev hbad
    cases i with
    | zero =>
      obtain ⟨e, he⟩ := hbad
      simp only [List.getD_cons_zero] at he
      unfold decryptLoop
      rw [he]
      simp
    | succ i' =>
      have hf : (decryptChunk C key f.content.asBytes).isOk = true := by
        have := hprev 0 (by omega)
        simpa using this
      obtain ⟨p, hp⟩ : ∃ p, decryptChunk C key f.content.asBytes = .ok p := by
        cases hq : decryptChunk C key f.content.asBytes with
        | error e => rw [hq] at hf; simp [Except.isOk, Except.toBool] at hf
        | ok p => exact ⟨p, rfl⟩
      unfold decryptLoop
      rw [hp]
      have hrec : decryptLoop C key fs (s + 1)
          = .error (.chunkDecryptionFailure (s + 1 + i')) := by
        apply ih (s + 1) i' (by simpa using hi)
        · intro j hj
          have := hprev (j + 1) (by omega)
          simpa using this
        · simpa using hbad
      rw [hrec]
      simp only
      congr 1
      congr 1
      omega

/-- C7: when the `i`-th sorted chunk file's bytes are not an authentic
`encryptChunk` output under the session key (any bit-level difference:
corruption, wrong key, or wrong IV framing) and the earlier chunks
decrypt, reconstruction aborts with `ChunkDecryptionFailure` carrying
index `i` — it never returns plaintext for the tampered set. -/
theorem reconstructFromChunks_tamper (C : CryptoSpec) (key : Bytes)
    (memOk uo : Bool) (files : List NamedFile) (mf : NamedFile)
    (md : FileMetadata) (i : Nat)
    (hfind : files.find? (fun f => endsWithL metaSuffix f.name) = some mf)
    (hmeta : mf.content.asMeta = some md)
    (hcount : (looseChunkFiles files).length = md.totalChunks)
    (hi : i < (looseChunkFiles files).length)
    (hprev : ∀ j, j < i →
      (decryptChunk C key
        (((looseChunkFiles files).getD j blankFile).content.asBytes)).isOk = true)
    (hbad : ∀ iv p, iv.length = 12 →
      ((looseChunkFiles files).getD i blankFile).content.asBytes
        ≠ iv ++ C.aeadEncrypt key iv p) :
    reconstructFromChunks C key memOk uo files
      = .error (.chunkDecryptionFailure i) := by
  unfold reconstructFromChunks
  rw [hfind]
  simp only [hmeta]
  rw [if_neg (by omega)]
  have hloop := decryptLoop_fails_at C key (looseChunkFiles files) 0 i hi hprev
    (decryptChunk_of_inauthentic C key _ hbad)
  rw [hloop]
  simp

/-- A concrete chunk set whose second chunk is corrupted (its ciphertext
is not an authentic encryption output). -/
def tamperedChunkSet : List NamedFile :=
  [⟨['d', '_', 'c', 'h', 'u', 'n', 'k', '_', '0', '.', 'e', 'n', 'c'],
      FileContent.bytes (encryptChunk idealCrypto [7] (List.replicate 12 0) [9])⟩,
    ⟨['d', '_', 'c', 'h', 'u', 'n', 'k', '_', '1', '.', 'e', 'n', 'c'],
      FileContent.bytes []⟩,
    ⟨['d', '_', 'm', 'e', 't', 'a', 'd', 'a', 't', 'a', '.', 'j', 's', 'o', 'n'],
      FileContent.meta ⟨['d'], ['x'], 2, 2, 0, [], compositeStr, 1⟩⟩]

/-- Witness for C7: with the first chunk authentic and the second
corrupted, reconstruction fails with `ChunkDecryptionFailure 1`. -/
theorem reconstructFromChunks_tamper_witness :
    reconstructFromChunks idealCrypto [7] true true tamperedChunkSet
      = .error (.chunkDecryptionFailure 1) := by
  apply reconstructFromChunks_tamper idealCrypto [7] true true tamperedChunkSet
    ⟨['d', '_', 'm', 'e', 't', 'a', 'd', 'a', 't', 'a', '.', 'j', 's', 'o', 'n'],
      FileContent.meta ⟨['d'], ['x'], 2, 2, 0, [], compositeStr, 1⟩⟩
    ⟨['d'], ['x'], 2, 2, 0, [], compositeStr, 1⟩
    1 (by decide) (by decide) (by decide) (by decide)
  · intro j hj
    interval_cases j
    decide
  · intro iv p h12
    rw [show ((looseChunkFiles tamperedChunkSet).getD 1 blankFile).content.asBytes
      = [] by decide]
    intro heq
    have hlen := congrArg List.length heq
    simp [List.length_append] at hlen
    omega

theorem decryptLoop_all_ok (C : CryptoSpec) (key : Bytes) :
    ∀ (l : List NamedFile) (s : Nat),
      (∀ j, j < l.length →
        (decryptChunk C key ((l.getD j blankFile).content.asBytes)).isOk = true) →
      ∃ ps, decryptLoop C key l s = .ok ps := by
  intro l
  induction l with
  | nil => exact fun s _ => ⟨[], rfl⟩
  | cons f fs ih =>
    intro s hdec
    have hf : (decryptChunk C key f.content.asBytes).isOk = true := by
      have := hdec 0 (by simp)
      simpa using this
    obtain ⟨p, hp⟩ : ∃ p, decryptChunk C key f.content.asBytes = .ok p := by
      cases hq : decryptChunk C key f.content.asBytes with
      | error e => rw [hq] at hf; simp [Except.isOk, Except.toBool] at hf
      | ok p => exact ⟨p, rfl⟩
    obtain ⟨ps, hps⟩ := ih (s + 1) (fun j hj => by
      have := hdec (j + 1) (by simpa using hj)
      simpa using this)
    refine ⟨p :: ps, ?_⟩
    unfold decryptLoop
    rw [hp, hps]

/-- C8: on the legacy (`hashType ≠ composite`) verification path, the
reconstructed buffer is concatenated and its digest compared to
`metadata.hash` (`memOk = true`); and whenever that computation throws
(`memOk = false`, e.g. out of memory), the catch sets `hashMatch := true`
— the integrity verdict passes without the check having been performed. -/
theorem reconstructFromChunks_legacy_hash (C : CryptoSpec) (key : Bytes)
    (uo uo2 : Bool) (files : List NamedFile) (mf : NamedFile)
    (md : FileMetadata)
    (hfind : files.find? (fun f => endsWithL metaSuffix f.name) = some mf)
    (hmeta : mf.content.asMeta = some md)
    (hlegacy : md.hashType ≠ compositeStr)
    (hcount : (looseChunkFiles files).length = md.totalChunks)
    (hdec : ∀ j, j < (looseChunkFiles files).length →
      (decryptChunk C key
        (((looseChunkFiles files).getD j blankFile).content.asBytes)).isOk = true) :
    (∃ r, reconstructFromChunks C key false uo files = .ok r ∧
      r.hashMatch = true) ∧
    (∀ r, reconstructFromChunks C key true uo2 files = .ok r →
      r.hashMatch
        = decide (calculateHash C (combineChunks r.reconstructed) = md.hash)) := by
  obtain ⟨ps, hps⟩ := decryptLoop_all_ok C key (looseChunkFiles files) 0 hdec
  constructor
  · refine ⟨⟨ps, md, true⟩, ?_, rfl⟩
    unfold reconstructFromChunks
    rw [hfind]
    simp only [hmeta]
    rw [if_neg (by omega), hps]
    simp only [if_neg hlegacy]
    simp
  · intro r hr
    unfold reconstructFromChunks at hr
    rw [hfind] at hr
    simp only [hmeta] at hr
    rw [if_neg (by omega), hps] at hr
    simp only [if_neg hlegacy, if_pos rfl] at hr
    generalize hd : decide (calculateHash C (combineChunks ps) = md.hash) = d at hr
    cases d with
    | false =>
      cases uo2 with
      | false => simp at hr
      | true =>
        rw [if_neg (by simp)] at hr
        injection hr with h2
        have hr' : r = ⟨ps, md, false⟩ := h2.symm
        subst hr'
        simp only
        rw [hd]
    | true =>
      rw [if_neg (by simp)] at hr
      injection hr with h2
      have hr' : r = ⟨ps, md, true⟩ := h2.symm
      subst hr'
      simp only
      rw [hd]

/-- A concrete chunk set with legacy metadata (no `composite` hash type)
and a garbage stored hash. -/
def legacyChunkSet : List NamedFile :=
  [⟨['e', '_', 'c', 'h', 'u', 'n', 'k', '_', '0', '.', 'e', 'n', 'c'],
      FileContent.bytes (encryptChunk idealCrypto [3] (List.replicate 12 0) [8])⟩,
    ⟨['e', '_', 'm', 'e', 't', 'a', 'd', 'a', 't', 'a', '.', 'j', 's', 'o', 'n'],
      FileContent.meta ⟨['e'], ['x'], 1, 1, 0, [], [], 1⟩⟩]

/-- Witness for C8: on the legacy path with the hashing step failing
(`memOk = false`), reconstruction reports `hashMatch = true` even though
the stored hash is garbage. -/
theorem reconstructFromChunks_legacy_hash_witness :
    (∃ r, reconstructFromChunks idealCrypto [3] false true legacyChunkSet
        = .ok r ∧ r.hashMatch = true) ∧
    (∀ r, reconstructFromChunks idealCrypto [3] true true legacyChunkSet
        = .ok r →
      r.hashMatch = decide (calculateHash idealCrypto
        (combineChunks r.reconstructed)
        = (FileMetadata.mk ['e'] ['x'] 1 1 0 [] [] 1).hash)) := by
  apply reconstructFromChunks_legacy_hash idealCrypto [3] true true legacyChunkSet
    ⟨['e', '_', 'm', 'e', 't', 'a', 'd', 'a', 't', 'a', '.', 'j', 's', 'o', 'n'],
      FileContent.meta ⟨['e'], ['x'], 1, 1, 0, [], [], 1⟩⟩
    ⟨['e'], ['x'], 1, 1, 0, [], [], 1⟩
    (by decide) (by decide) (by decide) (by decide)
  intro j hj
  rw [show (looseChunkFiles legacyChunkSet).length = 1 by decide] at hj
  interval_cases j
  decide

/-! ## Terminal metadata invariants (C6) -/

/-- The chunks of a buffer as the spec describes them: successive
`chunkSize`-byte slices until the buffer is exhausted.  Stated
independently of the pipeline's index arithmetic to compare the two. -/
def chunksOfRec (cs : Nat) : List Nat → List (List Nat)
  | [] => []
  | x :: xs => ((x :: xs).take cs) :: chunksOfRec cs (xs.drop (cs - 1))
termination_by l => l.length
decreasing_by
  simp only [List.length_cons, List.length_drop]
  omega

theorem fileChunk_eq_drop_take (cs : Nat) (content : Bytes) (i : Nat) :
    fileChunk cs content i = (content.drop (i * cs)).take cs := by
  unfold fileChunk sliceB
  rw [List.take_eq_take]
  rw [List.length_drop]
  omega

theorem fileChunk_succ (cs : Nat) (content : Bytes) (i : Nat) :
    fileChunk cs content (i + 1) = fileChunk cs (content.drop cs) i := by
  rw [fileChunk_eq_drop_take, fileChunk_eq_drop_take, List.drop_drop]
  congr 2
  ring

theorem mathCeilDiv_succ (L cs : Nat) (hcs : 0 < cs) (hL : 0 < L) :
    mathCeilDiv L cs = mathCeilDiv (L - cs) cs + 1 := by
  unfold mathCeilDiv
  by_cases hge : cs ≤ L
  · rw [show L + cs - 1 = (L - cs + cs - 1) + cs by omega, Nat.add_div_right _ hcs]
  · have hz : L - cs = 0 := by omega
    rw [hz]
    have h1 : (L + cs - 1) / cs = 1 := by
      apply Nat.div_eq_of_lt_le <;> omega
    have h0 : (0 + cs - 1) / cs = 0 := Nat.div_eq_of_lt (by omega)
    omega

theorem range_map_fileChunk_eq (cs : Nat) (hcs : 0 < cs) :
    ∀ content : Bytes,
      (List.range (mathCeilDiv content.length cs)).map (fileChunk cs content)
        = chunksOfRec cs content := by
  intro content
  generalize hn : content.length = n
  induction n using Nat.strong_induction_on generalizing content with
  | _ n ih =>
    cases content with
    | nil =>
      subst hn
      have h0 : mathCeilDiv 0 cs = 0 := Nat.div_eq_of_lt (by omega)
      simp only [List.length_nil, h0, List.range_zero, List.map_nil]
      rw [chunksOfRec]
    | cons x xs =>
      subst hn
      have hL : 0 < (x :: xs).length := by simp
      rw [mathCeilDiv_succ _ cs hcs hL, List.range_succ_eq_map, List.map_cons,
        List.map_map, chunksOfRec]
      congr 1
      · rw [fileChunk_eq_drop_take]
        simp
      · have hdrop : xs.drop (cs - 1) = (x :: xs).drop cs := by
          cases cs with
          | zero => omega
          | succ c => simp
        rw [hdrop]
        have htail : (List.range (mathCeilDiv ((x :: xs).length - cs) cs)).map
            (fileChunk cs (x :: xs) ∘ Nat.succ)
            = (List.range (mathCeilDiv ((x :: xs).length - cs) cs)).map
              (fileChunk cs ((x :: xs).drop cs)) := by
          apply List.map_congr_left
          intro a _
          simp only [Function.comp_apply]
          exact fileChunk_succ cs (x :: xs) a
        rw [htail]
        have hlen : ((x :: xs).drop cs).length = (x :: xs).length - cs := by
          simp
        rw [← hlen]
        exact ih _ (by simp at hlen ⊢; omega) _ rfl

theorem mathCeilDiv_spec (L cs : Nat) (hcs : 0 < cs) :
    L ≤ mathCeilDiv L cs * cs ∧ mathCeilDiv L cs * cs < L + cs := by
  have hdm := Nat.div_add_mod (L + cs - 1) cs
  have hlt : (L + cs - 1) % cs < cs := Nat.mod_lt _ hcs
  unfold mathCeilDiv
  rw [Nat.mul_comm]
  omega

/-- C6: the terminal metadata of the encryption pipeline has
`totalChunks = ceil(originalSize / chunkSize)` (characterized by the two
ceiling inequalities), `hashType = composite`, and
`hash = digest(concat(chunk_digests_in_order))` — the digest of the
concatenated per-chunk digests of the plaintext chunks in index order. -/
theorem encryptFileGenerator_metadata (C : CryptoSpec) (key : Bytes)
    (ivs : Nat → Bytes) (base ext : List Char) (cs ts : Nat) (content : Bytes)
    (hcs : 0 < cs) :
    content.length
      ≤ (encryptFileGenerator C key ivs base ext cs ts content).2.totalChunks * cs ∧
    (encryptFileGenerator C key ivs base ext cs ts content).2.totalChunks * cs
      < content.length + cs ∧
    (encryptFileGenerator C key ivs base ext cs ts content).2.hashType
      = compositeStr ∧
    (encryptFileGenerator C key ivs base ext cs ts content).2.hash
      = calculateHash C
        (charCodes (((chunksOfRec cs content).map (calculateHash C)).flatten)) := by
  have h1 := mathCeilDiv_spec content.length cs hcs
  refine ⟨h1.1, h1.2, rfl, ?_⟩
  show calculateHash C
      (charCodes (((List.range (mathCeilDiv content.length cs)).map
        (fun i => calculateHash C (fileChunk cs content i))).flatten)) = _
  rw [show (List.range (mathCeilDiv content.length cs)).map
      (fun i => calculateHash C (fileChunk cs content i))
      = ((List.range (mathCeilDiv content.length cs)).map
        (fileChunk cs content)).map (calculateHash C) by
    rw [List.map_map]; rfl]
  rw [range_map_fileChunk_eq cs hcs content]

/-- Witness for C6 at a concrete three-byte file with two-byte chunks. -/
theorem encryptFileGenerator_metadata_witness :
    0 < 2 ∧
    ((3 : Nat)
      ≤ (encryptFileGenerator idealCrypto [7] (fun _ => List.replicate 12 0)
          ['f'] ['x'] 2 0 [1, 2, 3]).2.totalChunks * 2 ∧
    (encryptFileGenerator idealCrypto [7] (fun _ => List.replicate 12 0)
        ['f'] ['x'] 2 0 [1, 2, 3]).2.totalChunks * 2 < 3 + 2 ∧
    (encryptFileGenerator idealCrypto [7] (fun _ => List.replicate 12 0)
        ['f'] ['x'] 2 0 [1, 2, 3]).2.hashType = compositeStr ∧
    (encryptFileGenerator idealCrypto [7] (fun _ => List.replicate 12 0)
        ['f'] ['x'] 2 0 [1, 2, 3]).2.hash
      = calculateHash idealCrypto
        (charCodes (((chunksOfRec 2 [1, 2, 3]).map
          (calculateHash idealCrypto)).flatten))) :=
  ⟨by decide,
    by
      have h := encryptFileGenerator_metadata idealCrypto [7]
        (fun _ => List.replicate 12 0) ['f'] ['x'] 2 0 [1, 2, 3] (by decide)
      simpa using h⟩

/-! ## Filename index parsing (towards C1)

The produced chunk filenames parse back to their indices under the
`/chunk_(\d+)/` scan — or, when the basename itself contains a `chunk_`
digit run, every produced name parses to that same constant — so the
numeric sort leaves the produced order unchanged either way. -/

theorem digitCh_isDigit {d : Nat} (h : d < 10) : (digitCh d).isDigit = true := by
  interval_cases d <;> decide

theorem digitCh_toNat {d : Nat} (h : d < 10) : (digitCh d).toNat = 48 + d := by
  interval_cases d <;> decide

theorem natDigits_ne_nil (n : Nat) : natDigits n ≠ [] := by
  rw [natDigits]
  split
  · simp
  · simp

theorem natDigits_all_digit (n : Nat) : ∀ c ∈ natDigits n, c.isDigit = true := by
  induction n using Nat.strong_induction_on with
  | _ n ih =>
    rw [natDigits]
    split
    · intro c hc
      simp only [List.mem_singleton] at hc
      subst hc
      exact digitCh_isDigit (by omega)
    · intro c hc
      rcases List.mem_append.mp hc with h | h
      · exact ih (n / 10) (Nat.div_lt_self (by omega) (by omega)) c h
      · simp only [List.mem_singleton] at h
        subst h
        exact digitCh_isDigit (Nat.mod_lt _ (by omega))

theorem digitsVal_append_singleton (xs : List Char) (c : Char) :
    digitsVal (xs ++ [c]) = digitsVal xs * 10 + (c.toNat - 48) := by
  unfold digitsVal
  rw [List.foldl_append]
  rfl

theorem digitsVal_natDigits (n : Nat) : digitsVal (natDigits n) = n := by
  induction n using Nat.strong_induction_on with
  | _ n ih =>
    rw [natDigits]
    split
    · rename_i h
      show digitsVal ([] ++ [digitCh n]) = n
      rw [digitsVal_append_singleton, digitCh_toNat h]
      simp [digitsVal]
    · rename_i h
      rw [digitsVal_append_singleton,
        ih (n / 10) (Nat.div_lt_self (by omega) (by omega)),
        digitCh_toNat (Nat.mod_lt _ (by omega))]
      omega

theorem padded4_ne_nil (i : Nat) : padded4 i ≠ [] := by
  unfold padded4
  intro h
  rcases List.append_eq_nil.mp h with ⟨_, h2⟩
  exact natDigits_ne_nil i h2

theorem padded4_all_digit (i : Nat) : ∀ c ∈ padded4 i, c.isDigit = true := by
  intro c hc
  unfold padded4 at hc
  rcases List.mem_append.mp hc with h | h
  · rw [List.eq_of_mem_replicate h]
    decide
  · exact natDigits_all_digit i c h

theorem digitsVal_replicate_zero (k : Nat) (ds : List Char) :
    digitsVal (List.replicate k '0' ++ ds) = digitsVal ds := by
  unfold digitsVal
  rw [List.foldl_append]
  congr 1
  induction k with
  | zero => rfl
  | succ k ihk => rw [List.replicate_succ, List.foldl_cons]; simpa using ihk

theorem digitsVal_padded4 (i : Nat) : digitsVal (padded4 i) = i := by
  unfold padded4
  rw [digitsVal_replicate_zero, digitsVal_natDigits]

theorem takeWhile_append_of_all (q : Char → Bool) (p r : List Char)
    (hp : ∀ c ∈ p, q c = true) :
    (p ++ r).takeWhile q = p ++ r.takeWhile q := by
  induction p with
  | nil => rfl
  | cons c cs ihc =>
    have hc : q c = true := hp c (List.mem_cons_self _ _)
    simp [List.takeWhile_cons, hc,
      ihc (fun d hd => hp d (List.mem_cons_of_mem _ hd))]

theorem takeWhile_append_stop (q : Char → Bool) (u X : List Char)
    (hu : ∃ c ∈ u, q c = false) :
    (u ++ X).takeWhile q = u.takeWhile q := by
  induction u with
  | nil => obtain ⟨c, hc, _⟩ := hu; simp at hc
  | cons c cs ihc =>
    rw [List.cons_append]
    cases hq : q c with
    | false => simp [List.takeWhile_cons, hq]
    | true =>
      have hrest : ∃ d ∈ cs, q d = false := by
        obtain ⟨d, hd, hdq⟩ := hu
        rcases List.mem_cons.mp hd with h | h
        · subst h; rw [hq] at hdq; cases hdq
        · exact ⟨d, h, hdq⟩
      simp [List.takeWhile_cons, hq, ihc hrest]

theorem headD_append_of_ne_nil (p X : List Char) (d : Char) (hp : p ≠ []) :
    (p ++ X).headD d = p.headD d := by
  cases p with
  | nil => exact absurd rfl hp
  | cons c cs => rfl

theorem isPrefixOf_append_of_length_le (p l X : List Char)
    (h : p.length ≤ l.length) :
    p.isPrefixOf (l ++ X) = p.isPrefixOf l := by
  induction p generalizing l with
  | nil => simp [List.isPrefixOf]
  | cons c cs ihc =>
    cases l with
    | nil => simp at h
    | cons a as =>
      rw [List.cons_append]
      show (c == a && cs.isPrefixOf (as ++ X)) = (c == a && cs.isPrefixOf as)
      rw [ihc as (by simpa using h)]

theorem isPrefixOf_self_append (l X : List Char) : l.isPrefixOf (l ++ X) = true := by
  rw [List.isPrefixOf_iff_prefix]
  exact List.prefix_append l X

/-- The six characters before the final underscore of `_chunk_`. -/
def sepInitL : List Char := "_chunk".toList

theorem headD_mem {p : List Char} (d : Char) (hp : p ≠ []) : p.headD d ∈ p := by
  cases p with
  | nil => exact absurd rfl hp
  | cons c cs => simp

theorem matchHead_at_tag (i : Nat) :
    matchHead (chunkTag ++ (padded4 i ++ encSuffix)) = some i := by
  unfold matchHead
  have h1 : chunkTag.isPrefixOf (chunkTag ++ (padded4 i ++ encSuffix)) = true :=
    isPrefixOf_self_append _ _
  have h2 : (chunkTag ++ (padded4 i ++ encSuffix)).drop 6 = padded4 i ++ encSuffix := by
    rw [show (6 : Nat) = chunkTag.length by decide, List.drop_left]
  have h3 : ((padded4 i ++ encSuffix).headD 'x').isDigit = true := by
    rw [headD_append_of_ne_nil _ _ _ (padded4_ne_nil i)]
    exact padded4_all_digit i _ (headD_mem _ (padded4_ne_nil i))
  have h4 : (padded4 i ++ encSuffix).takeWhile Char.isDigit = padded4 i := by
    rw [takeWhile_append_of_all _ _ _ (padded4_all_digit i),
      show encSuffix.takeWhile Char.isDigit = [] by decide, List.append_nil]
  rw [h1, h2, h3, h4, digitsVal_padded4]
  simp

theorem findChunkNum_sep (i : Nat) :
    findChunkNum (chunkSep ++ (padded4 i ++ encSuffix)) = some i := by
  rw [show chunkSep = '_' :: chunkTag by decide, List.cons_append, findChunkNum]
  have hm : matchHead ('_' :: (chunkTag ++ (padded4 i ++ encSuffix))) = none := by
    unfold matchHead
    rw [show chunkTag.isPrefixOf ('_' :: (chunkTag ++ (padded4 i ++ encSuffix)))
        = false from by rw [show chunkTag = 'c' :: "hunk_".toList by decide]; rfl]
    rfl
  rw [hm]
  show findChunkNum (chunkTag ++ (padded4 i ++ encSuffix)) = some i
  have hm2 : matchHead ('c' :: ("hunk_".toList ++ (padded4 i ++ encSuffix)))
      = some i := by
    rw [← List.cons_append, ← show chunkTag = 'c' :: "hunk_".toList by decide]
    exact matchHead_at_tag i
  rw [show chunkTag = 'c' :: "hunk_".toList by decide, List.cons_append,
    findChunkNum, hm2]

theorem matchHead_append_const (u Z : List Char) :
    matchHead ((u ++ chunkSep) ++ Z)
      = (if chunkTag.isPrefixOf (u ++ chunkSep)
            && ((((u ++ sepInitL).drop 6) ++ ['_']).headD 'x').isDigit
        then
          some (digitsVal ((((u ++ sepInitL).drop 6) ++ ['_']).takeWhile
            Char.isDigit))
        else none) := by
  have h7 : (6 : Nat) ≤ (u ++ chunkSep).length := by
    rw [List.length_append, show chunkSep.length = 7 by decide]; omega
  have hsplit : u ++ chunkSep = (u ++ sepInitL) ++ ['_'] := by
    rw [show chunkSep = sepInitL ++ ['_'] by decide, List.append_assoc]
  have hd6 : (u ++ chunkSep).drop 6 = ((u ++ sepInitL).drop 6) ++ ['_'] := by
    rw [hsplit, List.drop_append_of_le_length
      (by rw [List.length_append, show sepInitL.length = 6 by decide]; omega)]
  have htw : ∀ Z : List Char,
      ((((u ++ sepInitL).drop 6) ++ ['_']) ++ Z).takeWhile Char.isDigit
        = (((u ++ sepInitL).drop 6) ++ ['_']).takeWhile Char.isDigit := by
    intro Z
    apply takeWhile_append_stop
    exact ⟨'_', List.mem_append.mpr (Or.inr (by simp)), by decide⟩
  unfold matchHead
  rw [isPrefixOf_append_of_length_le _ _ _
      (le_trans (by rw [show chunkTag.length = 6 by decide]) h7),
    List.drop_append_of_le_length h7, hd6,
    headD_append_of_ne_nil _ _ _ (by simp),
    htw]

theorem matchHead_indep (u X Y : List Char) :
    matchHead ((u ++ chunkSep) ++ X) = matchHead ((u ++ chunkSep) ++ Y) := by
  rw [matchHead_append_const, matchHead_append_const]

/-- The `/chunk_(\d+)/` scan over a produced chunk filename either stops
inside the basename at the same value for every index, or parses the
produced index itself. -/
theorem findChunkNum_dichotomy (b : List Char) :
    (∃ v, ∀ i,
      findChunkNum (b ++ (chunkSep ++ (padded4 i ++ encSuffix))) = some v) ∨
    (∀ i, findChunkNum (b ++ (chunkSep ++ (padded4 i ++ encSuffix))) = some i) := by
  induction b with
  | nil =>
    right
    intro i
    rw [List.nil_append]
    exact findChunkNum_sep i
  | cons c b' ihb =>
    have hind : ∀ i j,
        matchHead ((c :: b') ++ (chunkSep ++ (padded4 i ++ encSuffix)))
          = matchHead ((c :: b') ++ (chunkSep ++ (padded4 j ++ encSuffix))) := by
      intro i j
      have h := matchHead_indep (c :: b') (padded4 i ++ encSuffix)
        (padded4 j ++ encSuffix)
      simpa [List.append_assoc] using h
    cases h0 : matchHead ((c :: b') ++ (chunkSep ++ (padded4 0 ++ encSuffix))) with
    | some v =>
      left
      refine ⟨v, fun i => ?_⟩
      have hmi : matchHead (c :: (b' ++ (chunkSep ++ (padded4 i ++ encSuffix))))
          = some v := by
        rw [← List.cons_append, hind i 0]
        exact h0
      rw [List.cons_append, findChunkNum, hmi]
    | none =>
      have hstep : ∀ i,
          findChunkNum ((c :: b') ++ (chunkSep ++ (padded4 i ++ encSuffix)))
            = findChunkNum (b' ++ (chunkSep ++ (padded4 i ++ encSuffix))) := by
        intro i
        have hmi : matchHead (c :: (b' ++ (chunkSep ++ (padded4 i ++ encSuffix))))
            = none := by
          rw [← List.cons_append, hind i 0]
          exact h0
        rw [List.cons_append, findChunkNum, hmi]
      rcases ihb with ⟨v, hv⟩ | hid
      · exact Or.inl ⟨v, fun i => by rw [hstep i]; exact hv i⟩
      · exact Or.inr (fun i => by rw [hstep i]; exact hid i)

theorem chunkName_assoc (base : List Char) (i : Nat) :
    chunkName base i = base ++ (chunkSep ++ (padded4 i ++ encSuffix)) := by
  unfold chunkName
  simp [List.append_assoc]

/-- The parsed sort key of produced chunk names is monotone in the index. -/
theorem chunkKey_monotone (base : List Char) :
    ∀ i j, i ≤ j → chunkKey (chunkName base i) ≤ chunkKey (chunkName base j) := by
  intro i j hij
  rcases findChunkNum_dichotomy base with ⟨v, hv⟩ | hid
  · rw [chunkKey, chunkKey, chunkName_assoc, chunkName_assoc, hv i, hv j]
  · rw [chunkKey, chunkKey, chunkName_assoc, chunkName_assoc, hid i, hid j]
    simpa using hij

theorem endsWithL_append_self (s b : List Char) : endsWithL s (b ++ s) = true := by
  unfold endsWithL
  rw [List.isSuffixOf_iff_suffix]
  exact List.suffix_append b s

theorem chunkName_not_meta (base : List Char) (i : Nat) :
    endsWithL metaSuffix (chunkName base i) = false := by
  unfold endsWithL
  simp only [Bool.eq_false_iff, ne_eq, List.isSuffixOf_iff_suffix]
  intro hsuf
  have henc : encSuffix <:+ chunkName base i := by
    unfold chunkName
    exact ⟨base ++ chunkSep ++ padded4 i, rfl⟩
  rcases List.suffix_or_suffix_of_suffix hsuf henc with h | h
  · have := h.length_le
    rw [show metaSuffix.length = 14 by decide, show encSuffix.length = 4 by decide]
      at this
    omega
  · exact absurd h (by decide)

theorem metadataName_not_enc (base : List Char) :
    endsWithL encSuffix (metadataName base) = false := by
  unfold endsWithL
  simp only [Bool.eq_false_iff, ne_eq, List.isSuffixOf_iff_suffix]
  intro hsuf
  have hmeta : metaSuffix <:+ metadataName base := ⟨base, rfl⟩
  rcases List.suffix_or_suffix_of_suffix hsuf hmeta with h | h
  · exact absurd h (by decide)
  · have := h.length_le
    rw [show metaSuffix.length = 14 by decide, show encSuffix.length = 4 by decide]
      at this
    omega

theorem flatten_range_drop_take (cs : Nat) :
    ∀ (n : Nat) (content : Bytes), content.length ≤ n * cs →
      ((List.range n).map (fun i => (content.drop (i * cs)).take cs)).flatten
        = content := by
  intro n
  induction n with
  | zero =>
    intro content h
    simp only [Nat.zero_mul, Nat.le_zero] at h
    rw [List.eq_nil_of_length_eq_zero h]
    rfl
  | succ n ihn =>
    intro content h
    rw [List.range_succ_eq_map, List.map_cons, List.map_map, List.flatten_cons]
    have ht : ((List.range n).map ((fun i => (content.drop (i * cs)).take cs)
        ∘ Nat.succ)).flatten
        = ((List.range n).map
          (fun i => ((content.drop cs).drop (i * cs)).take cs)).flatten := by
      congr 1
      apply List.map_congr_left
      intro a _
      simp only [Function.comp_apply]
      rw [List.drop_drop]
      congr 2
      rw [Nat.succ_eq_add_one]
      ring
    rw [ht, ihn (content.drop cs)
      (by
        rw [List.length_drop]
        have hs : (n + 1) * cs = n * cs + cs := by ring
        omega)]
    simp [List.take_append_drop]

theorem decryptLoop_range (C : CryptoSpec) (key : Bytes) (g : Nat → NamedFile)
    (h : Nat → Bytes) :
    ∀ (idxs : List Nat) (s : Nat),
      (∀ i ∈ idxs, decryptChunk C key (g i).content.asBytes = .ok (h i)) →
      decryptLoop C key (idxs.map g) s = .ok (idxs.map h) := by
  intro idxs
  induction idxs with
  | nil => intro s _; rfl
  | cons i is ihi =>
    intro s hok
    rw [List.map_cons, List.map_cons]
    unfold decryptLoop
    rw [hok i (by simp), ihi (s + 1) (fun j hj => hok j (by simp [hj]))]

theorem roundtrip_general (C : CryptoSpec) (key : Bytes) (ivs : Nat → Bytes)
    (base ext : List Char) (cs ts : Nat) (memOk uo : Bool) (content : Bytes)
    (hcs : 0 < cs) (hivs : ∀ i, (ivs i).length = 12) :
    reconstructFromChunks C key memOk uo
        (((encryptFileGenerator C key ivs base ext cs ts content).1).map
          (fun a => NamedFile.mk a.filename (FileContent.bytes a.data))
          ++ [NamedFile.mk (metadataName base)
            (FileContent.meta (encryptFileGenerator C key ivs base ext cs ts
              content).2)])
      = .ok ⟨(List.range (mathCeilDiv content.length cs)).map
          (fileChunk cs content),
        (encryptFileGenerator C key ivs base ext cs ts content).2, true⟩ := by
  have hF : ((encryptFileGenerator C key ivs base ext cs ts content).1).map
      (fun a => NamedFile.mk a.filename (FileContent.bytes a.data))
      = (List.range (mathCeilDiv content.length cs)).map
        (fun i => NamedFile.mk (chunkName base i)
          (FileContent.bytes (encryptChunk C key (ivs i)
            (fileChunk cs content i)))) := by
    show ((List.range (mathCeilDiv content.length cs)).map _).map _ = _
    rw [List.map_map]
    rfl
  rw [hF]
  unfold reconstructFromChunks
  rw [List.find?_append]
  have hnone : ((List.range (mathCeilDiv content.length cs)).map
      (fun i => NamedFile.mk (chunkName base i)
        (FileContent.bytes (encryptChunk C key (ivs i)
          (fileChunk cs content i))))).find?
      (fun f => endsWithL metaSuffix f.name) = none := by
    rw [List.find?_eq_none]
    intro x hx
    simp only [List.mem_map] at hx
    obtain ⟨i, _, rfl⟩ := hx
    simp [chunkName_not_meta]
  rw [hnone, Option.none_or]
  have hmf : ([NamedFile.mk (metadataName base)
      (FileContent.meta (encryptFileGenerator C key ivs base ext cs ts
        content).2)] : List NamedFile).find?
      (fun f => endsWithL metaSuffix f.name)
      = some (NamedFile.mk (metadataName base)
        (FileContent.meta (encryptFileGenerator C key ivs base ext cs ts
          content).2)) := by
    have : endsWithL metaSuffix (metadataName base) = true :=
      endsWithL_append_self metaSuffix base
    simp [List.find?, this]
  rw [hmf]
  simp only [FileContent.asMeta]
  have hfilter : looseChunkFiles
      ((List.range (mathCeilDiv content.length cs)).map
        (fun i => NamedFile.mk (chunkName base i)
          (FileContent.bytes (encryptChunk C key (ivs i)
            (fileChunk cs content i))))
        ++ [NamedFile.mk (metadataName base)
          (FileContent.meta (encryptFileGenerator C key ivs base ext cs ts
            content).2)])
      = (List.range (mathCeilDiv content.length cs)).map
        (fun i => NamedFile.mk (chunkName base i)
          (FileContent.bytes (encryptChunk C key (ivs i)
            (fileChunk cs content i)))) := by
    unfold looseChunkFiles
    rw [List.filter_append]
    have h1 : ((List.range (mathCeilDiv content.length cs)).map
        (fun i => NamedFile.mk (chunkName base i)
          (FileContent.bytes (encryptChunk C key (ivs i)
            (fileChunk cs content i))))).filter
        (fun f => endsWithL encSuffix f.name)
        = (List.range (mathCeilDiv content.length cs)).map
          (fun i => NamedFile.mk (chunkName base i)
            (FileContent.bytes (encryptChunk C key (ivs i)
              (fileChunk cs content i)))) := by
      rw [List.filter_eq_self]
      intro x hx
      simp only [List.mem_map] at hx
      obtain ⟨i, _, rfl⟩ := hx
      show endsWithL encSuffix (chunkName base i) = true
      rw [show chunkName base i
          = (base ++ chunkSep ++ padded4 i) ++ encSuffix from rfl]
      exact endsWithL_append_self _ _
    have h2 : ([NamedFile.mk (metadataName base)
        (FileContent.meta (encryptFileGenerator C key ivs base ext cs ts
          content).2)] : List NamedFile).filter
        (fun f => endsWithL encSuffix f.name) = [] := by
      simp [List.filter, metadataName_not_enc]
    rw [h1, h2, List.append_nil]
    apply List.Sorted.insertionSort_eq
    show List.Pairwise _ _
    rw [List.pairwise_map]
    apply (List.pairwise_lt_range _).imp
    intro i j hij
    exact chunkKey_monotone base i j (Nat.le_of_lt hij)
  rw [hfilter]
  rw [if_neg (by simp [encryptFileGenerator])]
  have hloop := decryptLoop_range C key
    (fun i => NamedFile.mk (chunkName base i)
      (FileContent.bytes (encryptChunk C key (ivs i) (fileChunk cs content i))))
    (fileChunk cs content)
    (List.range (mathCeilDiv content.length cs)) 0
    (fun i _ => decryptChunk_encryptChunk C key (ivs i)
      (fileChunk cs content i) (hivs i))
  rw [hloop]
  have hhash : calculateHash C
      (charCodes ((((List.range (mathCeilDiv content.length cs)).map
        (fileChunk cs content)).map (calculateHash C)).flatten))
      = (encryptFileGenerator C key ivs base ext cs ts content).2.hash := by
    show _ = calculateHash C
      (charCodes (((List.range (mathCeilDiv content.length cs)).map
        (fun i => calculateHash C (fileChunk cs content i))).flatten))
    rw [List.map_map]
    rfl
  simp only [show (encryptFileGenerator C key ivs base ext cs ts
    content).2.hashType = compositeStr from rfl, if_pos rfl, hhash]
  simp

/-- C1: for a file of any of the boundary sizes
`{0, 1, chunkSize−1, chunkSize, chunkSize+1, 10·chunkSize}` (the round
trip in fact holds for every size), reconstructing from the produced
chunk artifacts plus the terminal metadata returns exactly the original
bytes with `hashMatch = true`. -/
theorem encrypt_reconstruct_roundtrip (C : CryptoSpec) (key : Bytes)
    (ivs : Nat → Bytes) (base ext : List Char) (cs ts : Nat) (memOk uo : Bool)
    (content : Bytes) (hcs : 0 < cs) (hivs : ∀ i, (ivs i).length = 12)
    (hsize : content.length ∈ ([0, 1, cs - 1, cs, cs + 1, 10 * cs] : List Nat)) :
    ∃ r, reconstructFromChunks C key memOk uo
        (((encryptFileGenerator C key ivs base ext cs ts content).1).map
          (fun a => NamedFile.mk a.filename (FileContent.bytes a.data))
          ++ [NamedFile.mk (metadataName base)
            (FileContent.meta (encryptFileGenerator C key ivs base ext cs ts
              content).2)])
      = .ok r ∧ combineChunks r.reconstructed = content ∧ r.hashMatch = true := by
  refine ⟨_, roundtrip_general C key ivs base ext cs ts memOk uo content hcs hivs,
    ?_, rfl⟩
  show ((List.range (mathCeilDiv content.length cs)).map
    (fileChunk cs content)).flatten = content
  rw [List.map_congr_left (fun a _ => fileChunk_eq_drop_take cs content a)]
  exact flatten_range_drop_take cs _ content
    (mathCeilDiv_spec content.length cs hcs).1

/-- Witness for C1 at a three-byte file with two-byte chunks
(size `chunkSize + 1`). -/
theorem encrypt_reconstruct_roundtrip_witness :
    (0 : Nat) < 2 ∧
    (∀ i : Nat, (List.replicate 12 (0 : Nat)).length = 12) ∧
    ([1, 2, 3] : Bytes).length ∈ ([0, 1, 2 - 1, 2, 2 + 1, 10 * 2] : List Nat) ∧
    ∃ r, reconstructFromChunks idealCrypto [7] true true
        (((encryptFileGenerator idealCrypto [7] (fun _ => List.replicate 12 0)
          ['g'] ['x'] 2 0 [1, 2, 3]).1).map
          (fun a => NamedFile.mk a.filename (FileContent.bytes a.data))
          ++ [NamedFile.mk (metadataName ['g'])
            (FileContent.meta (encryptFileGenerator idealCrypto [7]
              (fun _ => List.replicate 12 0) ['g'] ['x'] 2 0 [1, 2, 3]).2)])
      = .ok r ∧ combineChunks r.reconstructed = [1, 2, 3] ∧ r.hashMatch = true :=
  ⟨by decide, fun _ => by decide, by decide,
    encrypt_reconstruct_roundtrip idealCrypto [7] (fun _ => List.replicate 12 0)
      ['g'] ['x'] 2 0 true true [1, 2, 3] (by decide) (fun _ => by simp)
      (by decide)⟩
